/-
Verification of the smog SMTP-to-Gmail relay core against its
natural-language specification.

The Go sources are shallowly embedded:
  * `internal/netutil/ip.go`   — access-policy evaluation (`IsAllowed`);
    the per-entry string parsing (`net.ParseCIDR` / `net.ParseIP`) is
    abstracted into the `SubnetEntry` datum, which records whether the
    configured entry parsed as a CIDR block, as a single IP, or as neither;
    IPv4 addresses are 32-bit naturals and CIDR containment is prefix
    equality, as in `net.IPNet.Contains`.
  * `internal/smtp/relay.go`   — the `Session` transaction state machine
    (`Mail`, `Rcpt`, `Data`, `Reset`) and the dispatch-error classification
    in `Session.Data`; the Gmail client is a function parameter `send`,
    mirroring the `gmail.Service` interface, and the `DataOutcome.dispatched`
    field records the arguments of the (at most one) call made to it.
  * `internal/gmail/client.go` — `replaceToHeader` and the encoding step of
    `Client.Send`; the `net/mail` / `net/textproto` header parsing is
    embedded for messages without folded (continuation) header lines, and
    Go's randomized map iteration is fixed to first-seen key order (all
    properties proved are order-independent).
  * `internal/auth/google.go`  — `tokenFromFile`, `saveToken`, `RevokeToken`
    over an explicit file-system state (`FS`) and a trace of primitive
    file-system operations (`FsOp`), so that ordering facts such as
    "zero-overwrite happens before removal" are statable.
  * `internal/config/config.go` / `cmd/smog/main.go` — the configured
    credential pair and the default-password constant.

Machine integers: Go `int` is embedded as `Int` where sign matters
(`MessageSizeLimitMB`), `Nat` elsewhere; byte strings are `List Char`
(resp. `List Nat` for raw bytes), with explicit `< 256` bounds where the
base64 codec needs them.
-/
import Mathlib

set_option linter.unusedVariables false

/-! ## Configuration (internal/config/config.go) -/

/-- The fragment of `config.Config` the relay core reads. -/
structure Config where
  SMTPUser : String
  SMTPPassword : String
  MessageSizeLimitMB : Int
deriving Repr, DecidableEq

/-- `config.DefaultSMTPPassword` — the known insecure default. -/
def DefaultSMTPPassword : String := "smoggmos"

/-! ## Access policy (internal/netutil/ip.go) -/

/-- An IPv4-style address as a 32-bit natural (the model of `net.IP` needed
by the policy check; containment below is prefix equality as in
`net.IPNet.Contains`). -/
abbrev IPAddr := Nat

/-- A parsed CIDR block: network base address and prefix length. -/
structure CIDR where
  base : Nat
  prefixLen : Nat
deriving Repr, DecidableEq

/-- `net.IPNet.Contains`: the address and the base agree on the first
`prefixLen` bits. -/
def CIDR.Contains (c : CIDR) (a : IPAddr) : Bool :=
  a / 2 ^ (32 - c.prefixLen) == c.base / 2 ^ (32 - c.prefixLen)

/-- One entry of the configured `AllowedSubnets` list, after the parse
attempts of `IsAllowed`: `net.ParseCIDR` succeeded, or else `net.ParseIP`
succeeded, or else neither (a malformed entry, carried with its raw text). -/
inductive SubnetEntry where
  | cidr (c : CIDR)
  | ip (a : IPAddr)
  | malformed (raw : String)
deriving Repr, DecidableEq

/-- The per-entry match relation: a CIDR entry matches by containment, an IP
entry by exact equality, a malformed entry never. -/
def SubnetEntry.Matches (e : SubnetEntry) (clientIP : IPAddr) : Bool :=
  match e with
  | .cidr c => c.Contains clientIP
  | .ip a => a == clientIP
  | .malformed _ => false

/-- `netutil.IsAllowed`: empty list allows all; otherwise walk the entries
in order, returning `true` on the first match (CIDR containment tried
first, then exact IP; malformed entries only warn) and `false` after the
loop. -/
def IsAllowed (clientIP : IPAddr) (allowedSubnets : List SubnetEntry) : Bool :=
  if allowedSubnets.isEmpty then
    true
  else
    go allowedSubnets
where
  go : List SubnetEntry → Bool
  | [] => false
  | .cidr c :: rest => if c.Contains clientIP then true else go rest
  | .ip a :: rest => if a == clientIP then true else go rest
  | .malformed _ :: rest => go rest

/-! ## Session state machine (internal/smtp/relay.go) -/

/-- The transaction-scoped state of `smtp.Session`: envelope sender
(`from`, renamed `from_` as `from` is a Lean keyword), ordered recipient
list and the buffered message data. -/
structure Session where
  from_ : String
  to_ : List String
  data : List Char
deriving Repr, DecidableEq

/-- `Session.Reset`: clear sender, recipients and buffer. -/
def Session.Reset (s : Session) : Session :=
  { s with from_ := "", to_ := [], data := [] }

/-- `Session.Mail`: reset the whole transaction state, then record the new
sender. -/
def Session.Mail (s : Session) (f : String) : Session :=
  { s.Reset with from_ := f }

/-- `Session.Rcpt`: append one recipient to the ordered list. -/
def Session.Rcpt (s : Session) (t : String) : Session :=
  { s with to_ := s.to_ ++ [t] }

/-- Result of one `gmail.Service.Send` call, as seen by `Session.Data`:
either a provider message id or an error whose text is matched on. -/
inductive SendOutcome where
  | success (id : String)
  | failure (msg : String)
deriving Repr, DecidableEq

/-- The protocol-level reply `Session.Data` hands back to the go-smtp
layer. -/
inductive SmtpReply where
  | ok (id : String)
  | smtpError (code : Nat) (msg : String)
deriving Repr, DecidableEq

/-- `strings.Contains`. -/
def strContains (s pat : String) : Bool :=
  decide (pat.toList <:+: s.toList)

/-- The error-classification chain at the end of `Session.Data`: substring
match on `"quota"` gives 452, else on `"authentication"` gives 535, else a
generic 451. -/
def classifySendError (msg : String) : SmtpReply :=
  if strContains msg "quota" then
    .smtpError 452 "Service temporarily unavailable due to quota limits"
  else if strContains msg "authentication" then
    .smtpError 535 "Authentication required - please run 'smog auth login'"
  else
    .smtpError 451 "Temporary failure relaying message"

/-- What one `Session.Data` call produced: the wire reply, the state after
reading, and the arguments of the `gmailClient.Send` call when one was
made (`none` exactly when no dispatch was attempted). -/
structure DataOutcome where
  reply : SmtpReply
  session : Session
  dispatched : Option (List String × List Char)
deriving Repr, DecidableEq

/-- The tail of `Session.Data` after the stream was read: call the client
and classify its result. -/
def Session.dispatch (send : List String → List Char → SendOutcome)
    (s : Session) : DataOutcome :=
  match send s.to_ s.data with
  | .success id => { reply := .ok id, session := s, dispatched := some (s.to_, s.data) }
  | .failure msg =>
      { reply := classifySendError msg, session := s, dispatched := some (s.to_, s.data) }

/-- `Session.Data`: when `MessageSizeLimitMB > 0`, read the stream through
`io.LimitReader(r, limitBytes+1)` into the buffer and reject with SMTP 552
when more than `limitBytes` accumulated; otherwise read the whole stream.
On a stream within bounds, dispatch via the client. -/
def Session.Data (cfg : Config) (send : List String → List Char → SendOutcome)
    (s : Session) (stream : List Char) : DataOutcome :=
  if cfg.MessageSizeLimitMB > 0 then
    let limitBytes : Int := cfg.MessageSizeLimitMB * 1024 * 1024
    let s1 : Session := { s with data := s.data ++ stream.take (limitBytes + 1).toNat }
    if (s1.data.length : Int) > limitBytes then
      { reply := .smtpError 552 "Message size exceeds limit",
        session := s1, dispatched := none }
    else
      s1.dispatch send
  else
    Session.dispatch send { s with data := s.data ++ stream }

/-! ## Session authentication (internal/smtp/relay.go) -/

/-- Result of one authentication attempt. -/
inductive AuthResult where
  | success
  | invalidCredentials
  | misconfigured
deriving Repr, DecidableEq

/-- The credential check inside `Session.Auth`'s `sasl.NewPlainServer`
callback (the current handler): exact match of both fields, nothing else. -/
def Session.AuthPlainCheck (cfg : Config) (username password : String) : AuthResult :=
  if username != cfg.SMTPUser || password != cfg.SMTPPassword then
    .invalidCredentials
  else
    .success

/-- The legacy `Session.Login` handler (kept in the source next to the
current `Auth`): refuse outright when the configured password is still the
insecure default, then exact match of both fields. -/
def Session.Login (cfg : Config) (username password : String) : AuthResult :=
  if cfg.SMTPPassword == "smoggmos" then
    .misconfigured
  else if username != cfg.SMTPUser || password != cfg.SMTPPassword then
    .invalidCredentials
  else
    .success

example : IsAllowed 5 [] = true := by decide
example : IsAllowed 5 [.ip 5] = true := by decide
example : IsAllowed 5 [.malformed "x"] = false := by decide
example : (CIDR.Contains ⟨0x0A000000, 8⟩ 0x0A0000FF) = true := by decide

/-! ## Helper lemmas for the session layer -/

/-- The walk inside `IsAllowed` returns true exactly when some entry
matches. -/
theorem IsAllowed.go_eq_any (a : IPAddr) (R : List SubnetEntry) :
    IsAllowed.go a R = R.any (fun e => e.Matches a) := by
  induction R with
  | nil => rfl
  | cons e rest ih =>
      cases e with
      | cidr c =>
          by_cases hc : c.Contains a = true <;>
            simp [IsAllowed.go, SubnetEntry.Matches, hc, ih]
      | ip x =>
          by_cases hx : (x == a) = true <;>
            simp [IsAllowed.go, SubnetEntry.Matches, hx, ih]
      | malformed s => simp [IsAllowed.go, SubnetEntry.Matches, ih]

/-- `Session.dispatch` always records the client-call arguments. -/
theorem Session.dispatch_dispatched (send : List String → List Char → SendOutcome)
    (s : Session) :
    (Session.dispatch send s).dispatched = some (s.to_, s.data) := by
  unfold Session.dispatch
  cases send s.to_ s.data <;> rfl

/-- `Session.dispatch` leaves the session state as given. -/
theorem Session.dispatch_session (send : List String → List Char → SendOutcome)
    (s : Session) :
    (Session.dispatch send s).session = s := by
  unfold Session.dispatch
  cases send s.to_ s.data <;> rfl

/-- When the client call fails, `Session.dispatch` replies with the
classified error. -/
theorem Session.dispatch_failure (send : List String → List Char → SendOutcome)
    (s : Session) (msg : String) (h : send s.to_ s.data = .failure msg) :
    (Session.dispatch send s).reply = classifySendError msg := by
  unfold Session.dispatch
  rw [h]

/-- The classification chain never emits code 552. -/
theorem classifySendError_ne_552 (msg m : String) :
    classifySendError msg ≠ .smtpError 552 m := by
  unfold classifySendError
  split <;> [simp; split <;> simp]

/-- Appending recipients one at a time appends to the ordered list. -/
theorem Session.foldl_Rcpt_to (s : Session) (rs : List String) :
    (rs.foldl Session.Rcpt s).to_ = s.to_ ++ rs := by
  induction rs generalizing s with
  | nil => simp
  | cons r rest ih => simp [Session.Rcpt, ih, List.append_assoc]

/-! ## Claim theorems: access policy -/

/-- C2: `IsAllowed` returns true on an empty rule set; on a non-empty rule
set it returns true iff some entry is a CIDR block containing the address
or an IP literal equal to it; malformed entries never match, so they never
change the result contributed by the other entries. -/
theorem IsAllowed_spec (a : IPAddr) (R : List SubnetEntry) :
    (R = [] → IsAllowed a R = true)
    ∧ (R ≠ [] → (IsAllowed a R = true ↔ ∃ e ∈ R, e.Matches a = true))
    ∧ (∀ s : String, (SubnetEntry.malformed s).Matches a = false) := by
  refine ⟨?_, ?_, fun s => rfl⟩
  · rintro rfl; rfl
  · intro hR
    rw [IsAllowed, if_neg (by simpa [List.isEmpty_iff] using hR),
      IsAllowed.go_eq_any, List.any_eq_true]

/-- C2 witness. -/
theorem IsAllowed_spec_witness :
    IsAllowed 5 [] = true
    ∧ (IsAllowed 5 [.malformed "bad", .ip 5] = true ↔
        ∃ e ∈ [SubnetEntry.malformed "bad", .ip 5], e.Matches 5 = true) := by
  exact ⟨(IsAllowed_spec 5 []).1 rfl, (IsAllowed_spec 5 _).2.1 (by decide)⟩

/-! ## Claim theorems: transaction state machine -/

/-- C5: after `Mail(f1)`, any number of `Rcpt` calls and `Mail(f2)`, the
recipient list and data buffer are empty and the sender is `f2` — `Mail`
performs a hard reset of transaction state before recording the sender. -/
theorem Mail_hard_reset (s : Session) (f1 : String) (rs : List String) (f2 : String) :
    ((rs.foldl Session.Rcpt (s.Mail f1)).Mail f2).to_ = []
    ∧ ((rs.foldl Session.Rcpt (s.Mail f1)).Mail f2).data = []
    ∧ ((rs.foldl Session.Rcpt (s.Mail f1)).Mail f2).from_ = f2 := by
  simp [Session.Mail, Session.Reset]

/-- C6: the recipients accumulated since the last `Mail` are exactly the
`Rcpt` arguments in call order (duplicates preserved, no bound enforced —
the list is arbitrary), and whenever `Session.Data` calls the dispatcher it
passes the session's recipient list verbatim. -/
theorem Rcpt_order_preserved :
    (∀ (s : Session) (f : String) (rs : List String),
        (rs.foldl Session.Rcpt (s.Mail f)).to_ = rs)
    ∧ (∀ (cfg : Config) (send : List String → List Char → SendOutcome)
        (s : Session) (stream : List Char) (r : List String × List Char),
        (Session.Data cfg send s stream).dispatched = some r → r.1 = s.to_) := by
  constructor
  · intro s f rs
    rw [Session.foldl_Rcpt_to]
    simp [Session.Mail, Session.Reset]
  · intro cfg send s stream r h
    unfold Session.Data at h
    split at h
    · dsimp only at h
      split at h
      · exact absurd h (by simp)
      · rw [Session.dispatch_dispatched] at h
        cases h; rfl
    · rw [Session.dispatch_dispatched] at h
      cases h; rfl

/-- C6 witness. -/
theorem Rcpt_order_preserved_witness :
    ((["a", "b", "a"].foldl Session.Rcpt
        (Session.Mail { from_ := "", to_ := ["x"], data := [] } "f")).to_ = ["a", "b", "a"])
    ∧ ((Session.Data { SMTPUser := "", SMTPPassword := "", MessageSizeLimitMB := 0 }
          (fun _ _ => .success "i") { from_ := "f", to_ := ["a", "b"], data := [] }
          []).dispatched = some (["a", "b"], []) → (["a", "b"], ([] : List Char)).1
        = ({ from_ := "f", to_ := ["a", "b"], data := [] } : Session).to_) :=
  ⟨Rcpt_order_preserved.1 _ "f" _, Rcpt_order_preserved.2 _ _ _ _ _⟩

/-- C10: with a zero or negative configured size limit, `Session.Data`
reads the entire stream, always attempts dispatch, and never returns a
552 size rejection. -/
theorem Data_no_limit_no_ceiling (cfg : Config) (hcfg : cfg.MessageSizeLimitMB ≤ 0)
    (send : List String → List Char → SendOutcome) (s : Session) (stream : List Char) :
    (Session.Data cfg send s stream).session.data = s.data ++ stream
    ∧ (Session.Data cfg send s stream).dispatched = some (s.to_, s.data ++ stream)
    ∧ ∀ m, (Session.Data cfg send s stream).reply ≠ .smtpError 552 m := by
  unfold Session.Data
  rw [if_neg (by omega)]
  refine ⟨by rw [Session.dispatch_session], by rw [Session.dispatch_dispatched], ?_⟩
  intro m
  unfold Session.dispatch
  cases hs : send ({ s with data := s.data ++ stream } : Session).to_
      ({ s with data := s.data ++ stream } : Session).data with
  | success id => simp
  | failure msg => simpa using classifySendError_ne_552 msg m

/-- C10 witness. -/
theorem Data_no_limit_no_ceiling_witness :
    (Session.Data { SMTPUser := "", SMTPPassword := "", MessageSizeLimitMB := 0 }
        (fun _ _ => .success "i") { from_ := "f", to_ := ["r"], data := [] }
        ['x']).dispatched = some (["r"], ['x']) :=
  (Data_no_limit_no_ceiling _ (by decide) _ _ _).2.1

/-- C7: the reply for a failed dispatch is decided by substring matching:
`"quota"` gives a retryable 452, otherwise `"authentication"` gives 535
with the instruction to re-run `smog auth login`, otherwise a generic 451;
and `Session.Data` replies with exactly this classification whenever the
client call it made fails (every dispatch error becomes a protocol reply,
never a crash — the embedding is a total function into `SmtpReply`). -/
theorem Data_error_classification :
    (∀ msg, strContains msg "quota" = true →
        classifySendError msg
          = .smtpError 452 "Service temporarily unavailable due to quota limits")
    ∧ (∀ msg, strContains msg "quota" = false → strContains msg "authentication" = true →
        classifySendError msg
          = .smtpError 535 "Authentication required - please run 'smog auth login'")
    ∧ (∀ msg, strContains msg "quota" = false → strContains msg "authentication" = false →
        classifySendError msg = .smtpError 451 "Temporary failure relaying message")
    ∧ (∀ (cfg : Config) (send : List String → List Char → SendOutcome)
        (s : Session) (stream : List Char) (r : List String × List Char) (msg : String),
        (Session.Data cfg send s stream).dispatched = some r →
        send r.1 r.2 = .failure msg →
        (Session.Data cfg send s stream).reply = classifySendError msg) := by
  refine ⟨?_, ?_, ?_, ?_⟩
  · intro msg h; rw [classifySendError, if_pos h]
  · intro msg h1 h2; rw [classifySendError, if_neg (by simp [h1]), if_pos h2]
  · intro msg h1 h2; rw [classifySendError, if_neg (by simp [h1]), if_neg (by simp [h2])]
  · intro cfg send s stream r msg hdisp hsend
    unfold Session.Data at hdisp ⊢
    split at hdisp <;> rename_i hlim
    · rw [if_pos hlim]
      dsimp only at hdisp ⊢
      split at hdisp <;> rename_i hsz
      · exact absurd hdisp (by simp)
      · rw [Session.dispatch_dispatched] at hdisp
        cases hdisp
        rw [if_neg hsz]
        exact Session.dispatch_failure _ _ _ hsend
    · rw [Session.dispatch_dispatched] at hdisp
      cases hdisp
      rw [if_neg hlim]
      exact Session.dispatch_failure _ _ _ hsend

/-- C7 witness. -/
theorem Data_error_classification_witness :
    classifySendError "user quota exceeded"
        = .smtpError 452 "Service temporarily unavailable due to quota limits"
    ∧ classifySendError "authentication token expired"
        = .smtpError 535 "Authentication required - please run 'smog auth login'"
    ∧ classifySendError "connection reset"
        = .smtpError 451 "Temporary failure relaying message" :=
  ⟨Data_error_classification.1 _ (by decide),
    Data_error_classification.2.1 _ (by decide) (by decide),
    Data_error_classification.2.2.1 _ (by decide) (by decide)⟩

/-! ## Claim theorems: size ceiling (C1) and authentication (C4) -/

/-- With a positive limit and a stream that (together with the buffer)
stays within it, `Session.Data` reads everything and proceeds to
dispatch. -/
theorem Session.Data_within_limit (cfg : Config)
    (send : List String → List Char → SendOutcome) (s : Session) (stream : List Char)
    (hpos : cfg.MessageSizeLimitMB > 0)
    (hlen : (s.data.length : Int) + stream.length ≤ cfg.MessageSizeLimitMB * 1024 * 1024) :
    Session.Data cfg send s stream
      = Session.dispatch send { s with data := s.data ++ stream } := by
  rw [Session.Data, if_pos hpos]
  dsimp only
  rw [List.take_of_length_le (by omega), if_neg (by push_cast [List.length_append]; omega)]

/-- C1 (code-bug evidence): the spec (and the repository's own test,
which expects a raw ceiling of about 3/4 of the configured limit and an
"is too large" rejection text) requires dispatch iff the raw length is at
most `limit * 3/4`; the `Session.Data` in `relay.go` instead compares
against the full limit. At the failing input — configured limit 1 MB
(1048576 bytes) and an 800000-byte stream, which exceeds the 786432-byte
raw ceiling `C*3/4` — the code attempts the dispatch and replies with the
provider id instead of returning a 552 `SizeExceeded` with no client
call. -/
theorem Data_dispatches_above_three_quarter_ceiling :
    ((1048576 : Int) * 3 / 4 < 800000 ∧ (800000 : Int) ≤ 1048576)
    ∧ (Session.Data { SMTPUser := "u", SMTPPassword := "p", MessageSizeLimitMB := 1 }
        (fun _ _ => SendOutcome.success "id")
        { from_ := "f", to_ := ["r"], data := [] }
        (List.replicate 800000 'a')).dispatched
      = some (["r"], List.replicate 800000 'a')
    ∧ (Session.Data { SMTPUser := "u", SMTPPassword := "p", MessageSizeLimitMB := 1 }
        (fun _ _ => SendOutcome.success "id")
        { from_ := "f", to_ := ["r"], data := [] }
        (List.replicate 800000 'a')).reply = .ok "id" := by
  have hwithin := Session.Data_within_limit
    { SMTPUser := "u", SMTPPassword := "p", MessageSizeLimitMB := 1 }
    (fun _ _ => SendOutcome.success "id")
    { from_ := "f", to_ := ["r"], data := [] }
    (List.replicate 800000 'a') (by norm_num)
    (by rw [List.length_replicate]; norm_num)
  refine ⟨⟨by norm_num, by norm_num⟩, ?_, ?_⟩ <;>
    rw [hwithin] <;> simp only [Session.dispatch, List.nil_append]

/-- C4 (counterexample): with the configured password equal to the known
insecure default and an exactly matching submitted pair, the current
`Session.Auth` credential check succeeds — the claim says it must fail. -/
theorem AuthPlainCheck_default_password_counterexample :
    ({ SMTPUser := "u", SMTPPassword := "smoggmos", MessageSizeLimitMB := 0 } : Config).SMTPPassword
        = DefaultSMTPPassword
    ∧ Session.AuthPlainCheck
        { SMTPUser := "u", SMTPPassword := "smoggmos", MessageSizeLimitMB := 0 }
        "u" "smoggmos" = .success := by
  exact ⟨rfl, by decide⟩

/-- C4 (amended): the current `Session.Auth` check succeeds iff both
fields match exactly, with no independent default-password refusal (that
refusal is performed at startup by `cmd/smog/main.go` and by the legacy
`Session.Login` handler, whose behaviour — refuse when the configured
password is the insecure default, else exact match — is proved
alongside). -/
theorem Auth_exact_match_spec (cfg : Config) (u p : String) :
    (Session.AuthPlainCheck cfg u p = .success ↔ (u = cfg.SMTPUser ∧ p = cfg.SMTPPassword))
    ∧ (Session.Login cfg u p = .success ↔
        (cfg.SMTPPassword ≠ DefaultSMTPPassword ∧ u = cfg.SMTPUser ∧ p = cfg.SMTPPassword)) := by
  have hd : DefaultSMTPPassword = "smoggmos" := rfl
  by_cases hu : u = cfg.SMTPUser <;> by_cases hp : p = cfg.SMTPPassword <;>
    by_cases hdef : cfg.SMTPPassword = "smoggmos" <;>
      simp [Session.AuthPlainCheck, Session.Login, hu, hp, hdef, hd]

/-- C4 witness for the amended statement. -/
theorem Auth_exact_match_spec_witness :
    Session.AuthPlainCheck { SMTPUser := "u", SMTPPassword := "p", MessageSizeLimitMB := 0 }
        "u" "p" = .success :=
  (Auth_exact_match_spec { SMTPUser := "u", SMTPPassword := "p", MessageSizeLimitMB := 0 }
      "u" "p").1.mpr ⟨rfl, rfl⟩

/-! ## Credential storage (internal/auth/google.go)

The token file lives in an explicit file-system state: a directory set and
an association list of files (path, contents, unix mode).  The Go
functions are embedded as producers of a trace of primitive operations
(`FsOp`) that is then applied to the state, so ordering facts (backup
before write, zero-overwrite before removal) are statable.  JSON
encoding/decoding of `oauth2.Token` is external (`encoding/json`) and is
abstracted as encode/decode function parameters. -/

/-- Contents and permission bits of one file. -/
structure FileData where
  contents : List Nat
  mode : Nat
deriving Repr, DecidableEq

/-- A file-system state: existing directories and files. -/
structure FS where
  dirs : List String
  files : List (String × FileData)
deriving Repr, DecidableEq

/-- Look a path up (first matching entry). -/
def FS.lookup (fs : FS) (p : String) : Option FileData :=
  (fs.files.find? (fun e => e.1 == p)).map Prod.snd

/-- Write a file, replacing any existing entry at that path. -/
def FS.setFile (fs : FS) (p : String) (d : FileData) : FS :=
  { fs with files := (p, d) :: fs.files.filter (fun e => e.1 != p) }

/-- Remove a file if present. -/
def FS.removeFile (fs : FS) (p : String) : FS :=
  { fs with files := fs.files.filter (fun e => e.1 != p) }

/-- The primitive file-system operations `saveToken` / `RevokeToken`
perform: `os.MkdirAll`, `os.Rename`, `os.OpenFile(..., O_CREATE|O_TRUNC)`
plus encode, in-place overwrite, and `os.Remove`. -/
inductive FsOp where
  | mkdirAll (d : String) (mode : Nat)
  | rename (src dst : String)
  | create (p : String) (contents : List Nat) (mode : Nat)
  | overwrite (p : String) (contents : List Nat)
  | remove (p : String)
deriving Repr, DecidableEq

/-- Apply one primitive operation. -/
def FS.applyOp (fs : FS) : FsOp → FS
  | .mkdirAll d _ => if d ∈ fs.dirs then fs else { fs with dirs := d :: fs.dirs }
  | .rename src dst =>
      match fs.lookup src with
      | none => fs
      | some fd => (fs.removeFile src).setFile dst fd
  | .create p c m => fs.setFile p ⟨c, m⟩
  | .overwrite p c =>
      match fs.lookup p with
      | none => fs
      | some fd => fs.setFile p ⟨c, fd.mode⟩
  | .remove p => fs.removeFile p

/-- Apply a trace of operations in order. -/
def FS.applyOps (fs : FS) (ops : List FsOp) : FS :=
  ops.foldl FS.applyOp fs

/-- `filepath.Dir` for slash-separated paths without trailing slashes:
everything before the last `/`, `"/"` for a file directly under the root,
`"."` when there is no separator. -/
def dirname (p : String) : String :=
  if p.toList.contains '/' then
    let d := ((p.toList.reverse.dropWhile (fun c => c ≠ '/')).drop 1).reverse
    if d = [] then "/" else ⟨d⟩
  else "."

/-- The operation trace of `saveToken`: ensure the directory (0700), back
an existing file up by renaming it to its `.bak` sibling, then write the
freshly encoded token with owner-only permissions (0600). -/
def saveTokenOps (fs : FS) (path : String) (tokBytes : List Nat) : List FsOp :=
  [FsOp.mkdirAll (dirname path) 448]
    ++ (if (fs.lookup path).isSome then [FsOp.rename path (path ++ ".bak")] else [])
    ++ [FsOp.create path tokBytes 384]

/-- `saveToken`, as the effect of its operation trace. -/
def saveToken (fs : FS) (path : String) (tokBytes : List Nat) : FS :=
  fs.applyOps (saveTokenOps fs path tokBytes)

/-- `tokenFromFile`: a missing file is "no credential" without error, an
undecodable file is an error, a decodable file yields the token. -/
def tokenFromFile {Token : Type} (decode : List Nat → Option Token)
    (fs : FS) (path : String) : Except String (Option Token) :=
  match fs.lookup path with
  | none => .ok none
  | some fd =>
      match decode fd.contents with
      | none => .error "failed to decode token"
      | some tok => .ok (some tok)

/-- The operation trace of `RevokeToken`: nothing when the file is
missing; otherwise overwrite its bytes with zeros (same length), then
remove it. -/
def RevokeTokenOps (fs : FS) (path : String) : List FsOp :=
  match fs.lookup path with
  | none => []
  | some fd => [FsOp.overwrite path (List.replicate fd.contents.length 0), FsOp.remove path]

/-- `RevokeToken`, as the effect of its operation trace. -/
def RevokeToken (fs : FS) (path : String) : FS :=
  fs.applyOps (RevokeTokenOps fs path)

/-! ## Helper lemmas for the file-system model -/

/-- Finding a key different from the filtered-out one is unaffected. -/
theorem List.find_filter_ne_key (l : List (String × FileData)) (q p : String)
    (h : q ≠ p) :
    (l.filter (fun e => e.1 != p)).find? (fun e => e.1 == q)
      = l.find? (fun e => e.1 == q) := by
  induction l with
  | nil => rfl
  | cons e t ih =>
      by_cases hep : e.1 = p
      · rw [List.filter_cons_of_neg (by simp [hep]),
          List.find?_cons_of_neg _ (by simp [hep, Ne.symm h])]
        exact ih
      · rw [List.filter_cons_of_pos (by simp [hep])]
        by_cases heq : e.1 = q
        · rw [List.find?_cons_of_pos _ (by simp [heq]),
            List.find?_cons_of_pos _ (by simp [heq])]
        · rw [List.find?_cons_of_neg _ (by simp [heq]),
            List.find?_cons_of_neg _ (by simp [heq])]
          exact ih

theorem FS.lookup_setFile_self (fs : FS) (p : String) (d : FileData) :
    (fs.setFile p d).lookup p = some d := by
  simp [FS.lookup, FS.setFile]

theorem FS.lookup_setFile_ne (fs : FS) (p q : String) (d : FileData) (h : q ≠ p) :
    (fs.setFile p d).lookup q = fs.lookup q := by
  simp only [FS.lookup, FS.setFile, List.find?]
  rw [show ((p, d).1 == q) = false by simp [Ne.symm h],
    List.find_filter_ne_key _ _ _ h]

theorem FS.lookup_removeFile_self (fs : FS) (p : String) :
    (fs.removeFile p).lookup p = none := by
  have hn : (fs.files.filter (fun e => e.1 != p)).find? (fun e => e.1 == p) = none := by
    rw [List.find?_eq_none]
    intro e he
    have := (List.mem_filter.mp he).2
    simp only [bne_iff_ne, ne_eq] at this
    simp [this]
  simp [FS.lookup, FS.removeFile, hn]

theorem FS.lookup_removeFile_ne (fs : FS) (p q : String) (h : q ≠ p) :
    (fs.removeFile p).lookup q = fs.lookup q := by
  simp only [FS.lookup, FS.removeFile]
  rw [List.find_filter_ne_key _ _ _ h]

theorem FS.lookup_mkdirAll (fs : FS) (d : String) (m : Nat) (q : String) :
    (fs.applyOp (FsOp.mkdirAll d m)).lookup q = fs.lookup q := by
  simp only [FS.applyOp]
  split <;> rfl

theorem FS.dirs_mkdirAll (fs : FS) (d : String) (m : Nat) :
    d ∈ (fs.applyOp (FsOp.mkdirAll d m)).dirs := by
  simp only [FS.applyOp]
  split
  · assumption
  · exact List.mem_cons_self _ _

/-- Every operation other than `mkdirAll` leaves the directory set
alone, and `mkdirAll` only adds to it. -/
theorem FS.dirs_applyOp_subset (fs : FS) (op : FsOp) :
    fs.dirs ⊆ (fs.applyOp op).dirs := by
  cases op with
  | mkdirAll d m =>
      simp only [FS.applyOp]
      split
      · exact fun x hx => hx
      · exact fun x hx => List.mem_cons_of_mem _ hx
  | rename src dst =>
      simp only [FS.applyOp]
      cases fs.lookup src <;> simp [FS.setFile, FS.removeFile, List.Subset.refl]
  | create p c m => simp [FS.applyOp, FS.setFile, List.Subset.refl]
  | overwrite p c =>
      simp only [FS.applyOp]
      cases fs.lookup p <;> simp [FS.setFile, List.Subset.refl]
  | remove p => simp [FS.applyOp, FS.removeFile, List.Subset.refl]

/-- A path never equals its `.bak` sibling. -/
theorem path_ne_bak (path : String) : path ≠ path ++ ".bak" := by
  intro h
  have h2 := congrArg String.length h
  rw [String.length_append] at h2
  have h4 : (".bak" : String).length = 4 := rfl
  omega

/-- Unfolding equations for `FS.applyOp`, one per operation shape. -/
theorem FS.applyOp_rename (fs : FS) (src dst : String) :
    fs.applyOp (FsOp.rename src dst)
      = match fs.lookup src with
        | none => fs
        | some fd => (fs.removeFile src).setFile dst fd := rfl

theorem FS.applyOp_remove (fs : FS) (p : String) :
    fs.applyOp (FsOp.remove p) = fs.removeFile p := rfl

theorem FS.applyOp_create (fs : FS) (p : String) (c : List Nat) (m : Nat) :
    fs.applyOp (FsOp.create p c m) = fs.setFile p ⟨c, m⟩ := rfl

/-- `saveToken` unfolded by whether a file already existed at the path. -/
theorem saveToken_eq (fs : FS) (path : String) (tb : List Nat) :
    saveToken fs path tb =
      match fs.lookup path with
      | none => (fs.applyOp (.mkdirAll (dirname path) 448)).setFile path ⟨tb, 384⟩
      | some fd =>
          (((fs.applyOp (.mkdirAll (dirname path) 448)).removeFile path).setFile
            (path ++ ".bak") fd).setFile path ⟨tb, 384⟩ := by
  cases hex : fs.lookup path with
  | none =>
      simp only [saveToken, saveTokenOps, hex, Option.isSome_none, Bool.false_eq_true,
        if_false, FS.applyOps, List.nil_append, List.singleton_append, List.foldl]
      rfl
  | some fd =>
      simp only [saveToken, saveTokenOps, hex, Option.isSome_some, if_true,
        FS.applyOps, List.singleton_append, List.foldl]
      have h1 : (fs.applyOp (.mkdirAll (dirname path) 448)).lookup path = some fd := by
        rw [FS.lookup_mkdirAll, hex]
      rw [FS.applyOp_rename, h1, FS.applyOp_create]

/-- `setFile` and `removeFile` do not touch the directory set. -/
theorem FS.dirs_setFile (fs : FS) (p : String) (d : FileData) :
    (fs.setFile p d).dirs = fs.dirs := rfl

theorem FS.dirs_removeFile (fs : FS) (p : String) :
    (fs.removeFile p).dirs = fs.dirs := rfl

/-- One `saveToken` always leaves the fresh token at the path, 0600. -/
theorem saveToken_lookup_self (fs : FS) (path : String) (tb : List Nat) :
    (saveToken fs path tb).lookup path = some ⟨tb, 384⟩ := by
  rw [saveToken_eq]
  cases hex : fs.lookup path <;> simp [FS.lookup_setFile_self]

/-- One `saveToken` leaves every other path (the `.bak` sibling apart)
unchanged. -/
theorem saveToken_frame (fs : FS) (path : String) (tb : List Nat) (q : String)
    (hq1 : q ≠ path) (hq2 : q ≠ path ++ ".bak") :
    (saveToken fs path tb).lookup q = fs.lookup q := by
  rw [saveToken_eq]
  cases hex : fs.lookup path with
  | none => rw [FS.lookup_setFile_ne _ _ _ _ hq1, FS.lookup_mkdirAll]
  | some fd =>
      rw [FS.lookup_setFile_ne _ _ _ _ hq1, FS.lookup_setFile_ne _ _ _ _ hq2,
        FS.lookup_removeFile_ne _ _ _ hq1, FS.lookup_mkdirAll]

/-- The destination directory is present after `saveToken`. -/
theorem saveToken_dirs (fs : FS) (path : String) (tb : List Nat) :
    dirname path ∈ (saveToken fs path tb).dirs := by
  rw [saveToken_eq]
  cases hex : fs.lookup path with
  | none => rw [FS.dirs_setFile]; exact FS.dirs_mkdirAll fs _ _
  | some fd =>
      rw [FS.dirs_setFile, FS.dirs_setFile, FS.dirs_removeFile]
      exact FS.dirs_mkdirAll fs _ _

/-- After `setFile p d`, exactly one entry carries the key `p`. -/
theorem FS.countP_setFile_self (fs : FS) (p : String) (d : FileData) :
    (fs.setFile p d).files.countP (fun e => e.1 == p) = 1 := by
  simp only [FS.setFile, List.countP_cons, beq_self_eq_true, if_pos]
  have h0 : (fs.files.filter (fun e => e.1 != p)).countP (fun e => e.1 == p) = 0 := by
    rw [List.countP_eq_zero]
    intro e he
    have := (List.mem_filter.mp he).2
    simp only [bne_iff_ne, ne_eq] at this
    simp [this]
  simp [h0]

/-- Setting a different key does not change how many entries carry `p`. -/
theorem FS.countP_setFile_ne (fs : FS) (p q : String) (d : FileData) (h : p ≠ q) :
    (fs.setFile q d).files.countP (fun e => e.1 == p)
      = fs.files.countP (fun e => e.1 == p) := by
  simp only [FS.setFile, List.countP_cons]
  rw [show ((q, d).1 == p) = false by simp [Ne.symm h]]
  simp only [Bool.false_eq_true, if_false, Nat.add_zero]
  rw [List.countP_filter, List.countP_congr]
  intro e he
  by_cases hep : e.1 = p
  · simp [hep, h]
  · simp [hep]

/-! ## Claim theorems: credential storage -/

/-- C8: `saveToken` ensures the destination directory exists, renames an
existing credential file to its `.bak` sibling before writing, and writes
the new token with owner-only (0600) permissions; saving twice leaves the
latest token at the path, the previous one as the single `.bak` file
(exactly one entry with that name, and every unrelated path — in
particular any `.bak.bak` chain candidate — is untouched). -/
theorem saveToken_spec (fs : FS) (path : String) (t1 t2 : List Nat) :
    dirname path ∈ (saveToken (saveToken fs path t1) path t2).dirs
    ∧ (saveToken (saveToken fs path t1) path t2).lookup path = some ⟨t2, 384⟩
    ∧ (saveToken (saveToken fs path t1) path t2).lookup (path ++ ".bak") = some ⟨t1, 384⟩
    ∧ (saveToken (saveToken fs path t1) path t2).files.countP
        (fun e => e.1 == path ++ ".bak") = 1
    ∧ ∀ q, q ≠ path → q ≠ path ++ ".bak" →
        (saveToken (saveToken fs path t1) path t2).lookup q = fs.lookup q := by
  have hbak : path ≠ path ++ ".bak" := path_ne_bak path
  have hfs1 : (saveToken fs path t1).lookup path = some ⟨t1, 384⟩ :=
    saveToken_lookup_self fs path t1
  refine ⟨saveToken_dirs _ _ _, saveToken_lookup_self _ _ _, ?_, ?_, ?_⟩
  · rw [saveToken_eq, hfs1]
    rw [FS.lookup_setFile_ne _ _ _ _ (Ne.symm hbak), FS.lookup_setFile_self]
  · rw [saveToken_eq, hfs1]
    rw [FS.countP_setFile_ne _ _ _ _ (Ne.symm hbak), FS.countP_setFile_self]
  · intro q hq1 hq2
    rw [saveToken_frame _ _ _ _ hq1 hq2, saveToken_frame _ _ _ _ hq1 hq2]

/-- C8 witness. -/
theorem saveToken_spec_witness :
    (saveToken (saveToken ⟨[], []⟩ "d/t.json" [1]) "d/t.json" [2]).lookup
        ("d/t.json" ++ ".bak") = some ⟨[1], 384⟩
    ∧ (saveToken (saveToken ⟨[], []⟩ "d/t.json" [1]) "d/t.json" [2]).lookup "other"
        = FS.lookup ⟨[], []⟩ "other" :=
  ⟨(saveToken_spec ⟨[], []⟩ "d/t.json" [1] [2]).2.2.1,
    (saveToken_spec ⟨[], []⟩ "d/t.json" [1] [2]).2.2.2.2 "other" (by decide) (by decide)⟩

/-- C9: loading from a missing token file reports "no credential" without
an error, while an undecodable file is an error; revoking a missing file
is a no-op success (empty operation trace, state unchanged), and revoking
an existing file first overwrites its bytes with an equal-length run of
zeros and then removes it, leaving no file at the path. -/
theorem tokenFromFile_RevokeToken_spec {Token : Type}
    (decode : List Nat → Option Token) (fs : FS) (path : String) :
    (fs.lookup path = none → tokenFromFile decode fs path = .ok none)
    ∧ (∀ fd, fs.lookup path = some fd → decode fd.contents = none →
        tokenFromFile decode fs path = .error "failed to decode token")
    ∧ (fs.lookup path = none →
        RevokeTokenOps fs path = [] ∧ RevokeToken fs path = fs)
    ∧ (∀ fd, fs.lookup path = some fd →
        RevokeTokenOps fs path
          = [FsOp.overwrite path (List.replicate fd.contents.length 0),
              FsOp.remove path]
        ∧ (RevokeToken fs path).lookup path = none) := by
  refine ⟨?_, ?_, ?_, ?_⟩
  · intro h; rw [tokenFromFile, h]
  · intro fd h hdec; rw [tokenFromFile, h]; dsimp only; rw [hdec]
  · intro h
    constructor
    · rw [RevokeTokenOps, h]
    · rw [RevokeToken, RevokeTokenOps, h]; rfl
  · intro fd h
    constructor
    · rw [RevokeTokenOps, h]
    · rw [RevokeToken, RevokeTokenOps, h]
      show ((fs.applyOp (.overwrite path (List.replicate fd.contents.length 0))).applyOp
          (.remove path)).lookup path = none
      rw [FS.applyOp_remove]
      exact FS.lookup_removeFile_self _ path

/-- C9 witness. -/
theorem tokenFromFile_RevokeToken_spec_witness :
    tokenFromFile (fun l => l.head?) ⟨[], []⟩ "p" = .ok none
    ∧ tokenFromFile (fun l => l.head?) ⟨[], [("p", ⟨[], 384⟩)]⟩ "p"
        = .error "failed to decode token"
    ∧ RevokeToken ⟨[], []⟩ "p" = ⟨[], []⟩
    ∧ RevokeTokenOps ⟨[], [("p", ⟨[7, 8], 420⟩)]⟩ "p"
        = [FsOp.overwrite "p" [0, 0], FsOp.remove "p"]
    ∧ (RevokeToken ⟨[], [("p", ⟨[7, 8], 420⟩)]⟩ "p").lookup "p" = none := by
  refine ⟨(tokenFromFile_RevokeToken_spec _ _ _).1 (by decide),
    (tokenFromFile_RevokeToken_spec _ _ _).2.1 ⟨[], 384⟩ (by decide) rfl,
    ((tokenFromFile_RevokeToken_spec (fun l => l.head?) _ _).2.2.1 (by decide)).2,
    ?_,
    ((tokenFromFile_RevokeToken_spec (fun l => l.head?) _ _).2.2.2 ⟨[7, 8], 420⟩
      (by decide)).2⟩
  exact ((tokenFromFile_RevokeToken_spec (fun l => l.head?) _ _).2.2.2 ⟨[7, 8], 420⟩
    (by decide)).1

/-! ## Base64 (encoding/base64, RawURLEncoding)

`Client.Send` submits `base64.RawURLEncoding.EncodeToString(modifiedEmail)`:
the URL-safe alphabet, no padding.  Bytes are naturals `< 256`; the decoder
is Go's default (non-strict) one, which maps characters through the
alphabet table, consumes 4-character quantums with a final quantum of 2 or
3 characters (a single leftover character is an error), and ignores
trailing bits. -/

/-- The URL-safe base64 alphabet. -/
def b64alphabet : List Char :=
  "ABCDEFGHIJKLMNOPQRSTUVWXYZabcdefghijklmnopqrstuvwxyz0123456789-_".toList

/-- Sextet to character. -/
def b64char (n : Nat) : Char := b64alphabet.getD n 'A'

/-- Character back to sextet (the decode table). -/
def b64val (c : Char) : Option Nat := List.indexOf? c b64alphabet

/-- Unpadded URL-safe base64 encoding of a byte list. -/
def encB64 : List Nat → List Char
  | [] => []
  | [a] => [b64char (a / 4), b64char (a % 4 * 16)]
  | [a, b] => [b64char (a / 4), b64char (a % 4 * 16 + b / 16), b64char (b % 16 * 4)]
  | a :: b :: c :: rest =>
      b64char (a / 4) :: b64char (a % 4 * 16 + b / 16)
        :: b64char (b % 16 * 4 + c / 64) :: b64char (c % 64) :: encB64 rest

/-- Unpadded URL-safe base64 decoding. -/
def decB64 : List Char → Option (List Nat)
  | [] => some []
  | [_] => none
  | [c1, c2] =>
      match b64val c1, b64val c2 with
      | some v1, some v2 => some [v1 * 4 + v2 / 16]
      | _, _ => none
  | [c1, c2, c3] =>
      match b64val c1, b64val c2, b64val c3 with
      | some v1, some v2, some v3 => some [v1 * 4 + v2 / 16, v2 % 16 * 16 + v3 / 4]
      | _, _, _ => none
  | c1 :: c2 :: c3 :: c4 :: rest =>
      match b64val c1, b64val c2, b64val c3, b64val c4, decB64 rest with
      | some v1, some v2, some v3, some v4, some tail =>
          some ((v1 * 4 + v2 / 16) :: (v2 % 16 * 16 + v3 / 4) :: (v3 % 4 * 64 + v4) :: tail)
      | _, _, _, _, _ => none

/-- The decode table inverts the encode table on every sextet. -/
theorem b64val_b64char : ∀ n, n < 64 → b64val (b64char n) = some n := by decide

/-- Base64 roundtrip: decoding an encoded byte list gives it back. -/
theorem decB64_encB64 (l : List Nat) (h : ∀ x ∈ l, x < 256) :
    decB64 (encB64 l) = some l := by
  induction l using encB64.induct with
  | case1 => rfl
  | case2 a =>
      have ha : a < 256 := h a (by simp)
      have h1 := b64val_b64char (a / 4) (by omega)
      have h2 := b64val_b64char (a % 4 * 16) (by omega)
      simp only [encB64, decB64, h1, h2]
      have : a / 4 * 4 + a % 4 * 16 / 16 = a := by omega
      rw [this]
  | case3 a b =>
      have ha : a < 256 := h a (by simp)
      have hb : b < 256 := h b (by simp)
      have h1 := b64val_b64char (a / 4) (by omega)
      have h2 := b64val_b64char (a % 4 * 16 + b / 16) (by omega)
      have h3 := b64val_b64char (b % 16 * 4) (by omega)
      simp only [encB64, decB64, h1, h2, h3]
      have e1 : a / 4 * 4 + (a % 4 * 16 + b / 16) / 16 = a := by omega
      have e2 : (a % 4 * 16 + b / 16) % 16 * 16 + b % 16 * 4 / 4 = b := by omega
      rw [e1, e2]
  | case4 a b c rest ih =>
      have ha : a < 256 := h a (by simp)
      have hb : b < 256 := h b (by simp)
      have hc : c < 256 := h c (by simp)
      have htail : ∀ x ∈ rest, x < 256 := fun x hx => h x (by simp [hx])
      have h1 := b64val_b64char (a / 4) (by omega)
      have h2 := b64val_b64char (a % 4 * 16 + b / 16) (by omega)
      have h3 := b64val_b64char (b % 16 * 4 + c / 64) (by omega)
      have h4 := b64val_b64char (c % 64) (by omega)
      simp only [encB64, decB64, h1, h2, h3, h4, ih htail]
      have e1 : a / 4 * 4 + (a % 4 * 16 + b / 16) / 16 = a := by omega
      have e2 : (a % 4 * 16 + b / 16) % 16 * 16 + (b % 16 * 4 + c / 64) / 4 = b := by omega
      have e3 : (b % 16 * 4 + c / 64) % 4 * 64 + c % 64 = c := by omega
      rw [e1, e2, e3]

/-! ## Message parsing (net/mail.ReadMessage / net/textproto)

`replaceToHeader` relies on the standard library's message parsing.  The
embedding covers the fragment without folded (continuation) header lines:
lines end in `\n` (an optional preceding `\r` is stripped), the header
block ends at the first empty line, each header line is split at its first
colon, the key is canonicalized MIME-style (first letter and letters after
a dash upper-cased, the rest lower-cased, by the same byte arithmetic Go
uses), the value loses leading spaces and tabs, and repeated keys
accumulate their values in order.  A header line starting with a space or
tab (a fold) is out of the modelled fragment and parses to `none`. -/

/-- Split at the first `\n`: the line before it and the remainder. -/
def takeLine : List Char → Option (List Char × List Char)
  | [] => none
  | c :: cs =>
      if c = '\n' then some ([], cs)
      else
        match takeLine cs with
        | none => none
        | some (l, r) => some (c :: l, r)

/-- Strip one trailing `\r`, as Go's textproto line reader does. -/
def stripCR (l : List Char) : List Char :=
  if l.getLast? = some '\r' then l.dropLast else l

/-- One protocol line: up to the first `\n`, minus a trailing `\r`. -/
def readLine (cs : List Char) : Option (List Char × List Char) :=
  (takeLine cs).map (fun p => (stripCR p.1, p.2))

/-- Split at the first `:`. -/
def splitColon : List Char → Option (List Char × List Char)
  | [] => none
  | c :: cs =>
      if c = ':' then some ([], cs)
      else
        match splitColon cs with
        | none => none
        | some (k, v) => some (c :: k, v)

/-- Drop leading spaces and tabs (the value trim in `ReadMIMEHeader`). -/
def trimLeftWS (l : List Char) : List Char :=
  l.dropWhile (fun c => c == ' ' || c == '\t')

/-- Upper-case one ASCII letter (Go's byte arithmetic `c -= 'a' - 'A'`). -/
def chUpper (c : Char) : Char :=
  if 97 ≤ c.toNat ∧ c.toNat ≤ 122 then Char.ofNat (c.toNat - 32) else c

/-- Lower-case one ASCII letter (Go's byte arithmetic `c += 'a' - 'A'`). -/
def chLower (c : Char) : Char :=
  if 65 ≤ c.toNat ∧ c.toNat ≤ 90 then Char.ofNat (c.toNat + 32) else c

/-- `textproto.CanonicalMIMEHeaderKey`'s case walk: upper-case after a
dash or at the start, lower-case elsewhere. -/
def canonAux : Bool → List Char → List Char
  | _, [] => []
  | b, c :: cs => (if b then chUpper c else chLower c) :: canonAux (c == '-') cs

/-- Canonical form of a header key. -/
def canonKey (k : List Char) : List Char := canonAux true k

/-- The header map in first-seen key order (Go's map iteration order is
random; every property proved below is order-independent). -/
abbrev Headers := List (List Char × List (List Char))

/-- `m[key] = append(m[key], value)`. -/
def insertHeader (k v : List Char) : Headers → Headers
  | [] => [(k, [v])]
  | (k1, vs) :: rest =>
      if k1 = k then (k1, vs ++ [v]) :: rest
      else (k1, vs) :: insertHeader k v rest

/-- The header-reading loop of `ReadMIMEHeader`, fuelled by the input
length. -/
def parseHeadersAux : Nat → Headers → List Char → Option (Headers × List Char)
  | 0, _, _ => none
  | fuel + 1, acc, cs =>
      match readLine cs with
      | none => none
      | some (line, rest) =>
          match line with
          | [] => some (acc, rest)
          | c :: _ =>
              if c = ' ' ∨ c = '\t' then none
              else
                match splitColon line with
                | none => none
                | some (k, v) =>
                    parseHeadersAux fuel (insertHeader (canonKey k) (trimLeftWS v) acc) rest

/-- `mail.ReadMessage`: the header block and the untouched body. -/
def parseMessage (cs : List Char) : Option (Headers × List Char) :=
  parseHeadersAux (cs.length + 1) [] cs

/-- `strings.Join(vs, ", ")`. -/
def joinComma : List (List Char) → List Char
  | [] => []
  | [v] => v
  | v :: rest => v ++ ',' :: ' ' :: joinComma rest

/-- The canonical `To` key. -/
def toHeaderName : List Char := ['T', 'o']

/-- `msg.Header["To"] = vs` (replace in place, else append). -/
def setHeader (k : List Char) (vs : List (List Char)) : Headers → Headers
  | [] => [(k, vs)]
  | (k1, vs1) :: rest =>
      if k1 = k then (k, vs) :: rest else (k1, vs1) :: setHeader k vs rest

/-- `delete(msg.Header, "To")`. -/
def deleteHeader (k : List Char) (hs : Headers) : Headers :=
  hs.filter (fun e => decide (e.1 ≠ k))

/-- One rebuilt header line: `fmt.Sprintf("%s: %s", k, strings.Join(v, ", "))`. -/
def renderHeaderLine (e : List Char × List (List Char)) : List Char :=
  e.1 ++ ':' :: ' ' :: joinComma e.2

/-- The reassembled message: each header line followed by CRLF, a blank
line, then the body copied verbatim. -/
def renderMessage (hs : Headers) (body : List Char) : List Char :=
  (hs.map (fun e => renderHeaderLine e ++ ['\r', '\n'])).flatten ++ '\r' :: '\n' :: body

/-- `gmail.replaceToHeader`: parse, replace (or, on an empty recipient
list, delete) the `To` header, reassemble. -/
def replaceToHeader (recipients : List (List Char)) (rawEmail : List Char) :
    Option (List Char) :=
  match parseMessage rawEmail with
  | none => none
  | some (hs, body) =>
      if recipients.length > 0 then
        some (renderMessage (setHeader toHeaderName [joinComma recipients] hs) body)
      else
        some (renderMessage (deleteHeader toHeaderName hs) body)

/-- The encoded payload `Client.Send` submits as the `Raw` field:
`base64.RawURLEncoding` of the modified message (`none` when header
replacement failed, in which case no API call is made). -/
def ClientSendPayload (recipients : List (List Char)) (rawEmail : List Char) :
    Option (List Char) :=
  (replaceToHeader recipients rawEmail).map (fun m => encB64 (m.map Char.toNat))

/-- The header block of a message, line by line: the lines before the
first empty line, and the rest as body (fuelled by input length). -/
def splitAtBlankAux : Nat → List Char → Option (List (List Char) × List Char)
  | 0, _ => none
  | fuel + 1, cs =>
      match readLine cs with
      | none => none
      | some (line, rest) =>
          match line with
          | [] => some ([], rest)
          | _ =>
              match splitAtBlankAux fuel rest with
              | none => none
              | some (ls, body) => some (line :: ls, body)

/-- Header block and body of a raw message. -/
def splitAtBlank (cs : List Char) : Option (List (List Char) × List Char) :=
  splitAtBlankAux (cs.length + 1) cs

/-- Field name of a header line: the part before its first colon. -/
def lineKey (l : List Char) : Option (List Char) :=
  (splitColon l).map Prod.fst

/-- Field value of a header line: after the colon, leading blanks
dropped. -/
def lineVal (l : List Char) : Option (List Char) :=
  (splitColon l).map (fun p => trimLeftWS p.2)

/-! ## Line-level lemmas -/

/-- A successful `takeLine` is an exact decomposition at the first `\n`. -/
theorem takeLine_eq : ∀ (cs l r : List Char), takeLine cs = some (l, r) →
    cs = l ++ '\n' :: r ∧ '\n' ∉ l := by
  intro cs
  induction cs with
  | nil => intro l r h; exact absurd h (by simp [takeLine])
  | cons c cs ih =>
      intro l r h
      rw [takeLine] at h
      by_cases hc : c = '\n'
      · rw [if_pos hc] at h
        cases h
        subst hc
        exact ⟨rfl, by simp⟩
      · rw [if_neg hc] at h
        cases htl : takeLine cs with
        | none => rw [htl] at h; cases h
        | some p =>
            obtain ⟨l1, r1⟩ := p
            rw [htl] at h
            simp only [Option.some.injEq, Prod.mk.injEq] at h
            obtain ⟨h1, h2⟩ := h
            subst h1
            subst h2
            obtain ⟨he, hn⟩ := ih l1 r1 htl
            exact ⟨by rw [he]; rfl, by simp [hn, Ne.symm hc]⟩

theorem takeLine_append (l r : List Char) (h : '\n' ∉ l) :
    takeLine (l ++ '\n' :: r) = some (l, r) := by
  induction l with
  | nil => simp [takeLine]
  | cons c cs ih =>
      have hc : c ≠ '\n' := fun hc => h (hc ▸ List.mem_cons_self c cs)
      rw [List.cons_append, takeLine, if_neg hc,
        ih (fun hm => h (List.mem_cons_of_mem c hm))]

/-- Reading one line off a CRLF-terminated chunk gives the chunk back. -/
theorem readLine_crlf (l r : List Char) (h : '\n' ∉ l) :
    readLine (l ++ '\r' :: '\n' :: r) = some (l, r) := by
  have he : l ++ '\r' :: '\n' :: r = (l ++ ['\r']) ++ '\n' :: r := by simp
  have hn : '\n' ∉ l ++ ['\r'] := by
    simp only [List.mem_append, List.mem_singleton]
    rintro (hm | hm)
    · exact h hm
    · cases hm
  rw [readLine, he, takeLine_append _ _ hn]
  simp [stripCR, List.getLast?_concat, List.dropLast_concat]

/-- A read line is shorter than its input. -/
theorem readLine_shrink (cs l r : List Char) (h : readLine cs = some (l, r)) :
    r.length < cs.length := by
  rw [readLine] at h
  cases htl : takeLine cs with
  | none => rw [htl] at h; cases h
  | some p =>
      obtain ⟨l0, r0⟩ := p
      rw [htl] at h
      simp only [Option.map_some', Option.some.injEq, Prod.mk.injEq] at h
      obtain ⟨h1, h2⟩ := h
      subst h2
      have := (takeLine_eq cs l0 r0 htl).1
      have hlen := congrArg List.length this
      simp only [List.length_append, List.length_cons] at hlen
      omega

/-- The characters of a read line and of the remainder come from the
input, and the line contains no `\n`. -/
theorem readLine_chars (cs l r : List Char) (h : readLine cs = some (l, r)) :
    '\n' ∉ l ∧ (∀ c ∈ l, c ∈ cs) ∧ ∀ c ∈ r, c ∈ cs := by
  rw [readLine] at h
  cases htl : takeLine cs with
  | none => rw [htl] at h; cases h
  | some p =>
      obtain ⟨l0, r0⟩ := p
      rw [htl] at h
      simp only [Option.map_some', Option.some.injEq, Prod.mk.injEq] at h
      obtain ⟨h1, h2⟩ := h
      subst h1
      subst h2
      obtain ⟨he, hn⟩ := takeLine_eq cs l0 r0 htl
      have hsub : ∀ c ∈ stripCR l0, c ∈ l0 := by
        intro c hc
        rw [stripCR] at hc
        split at hc
        · exact List.dropLast_subset _ hc
        · exact hc
      refine ⟨fun hm => hn (hsub _ hm), ?_, ?_⟩
      · intro c hc
        rw [he]
        exact List.mem_append_left _ (hsub c hc)
      · intro c hc
        rw [he]
        exact List.mem_append_right _ (List.mem_cons_of_mem _ hc)

/-- A successful `splitColon` is an exact decomposition at the first `:`. -/
theorem splitColon_eq : ∀ (l k v : List Char), splitColon l = some (k, v) →
    l = k ++ ':' :: v ∧ ':' ∉ k := by
  intro l
  induction l with
  | nil => intro k v h; exact absurd h (by simp [splitColon])
  | cons c cs ih =>
      intro k v h
      rw [splitColon] at h
      by_cases hc : c = ':'
      · rw [if_pos hc] at h
        cases h
        subst hc
        exact ⟨rfl, by simp⟩
      · rw [if_neg hc] at h
        cases hsc : splitColon cs with
        | none => rw [hsc] at h; cases h
        | some p =>
            obtain ⟨k1, v1⟩ := p
            rw [hsc] at h
            simp only [Option.some.injEq, Prod.mk.injEq] at h
            obtain ⟨h1, h2⟩ := h
            subst h1
            subst h2
            obtain ⟨he, hn⟩ := ih k1 v1 hsc
            exact ⟨by rw [he]; rfl, by simp [hn, Ne.symm hc]⟩

theorem splitColon_append (k v : List Char) (h : ':' ∉ k) :
    splitColon (k ++ ':' :: v) = some (k, v) := by
  induction k with
  | nil => simp [splitColon]
  | cons c cs ih =>
      have hc : c ≠ ':' := fun hc => h (hc ▸ List.mem_cons_self c cs)
      rw [List.cons_append, splitColon, if_neg hc,
        ih (fun hm => h (List.mem_cons_of_mem c hm))]

/-! ## Character-case lemmas -/

/-- `Char.ofNat` on a valid scalar value round-trips through `toNat`. -/
theorem toNat_ofNat_valid (n : Nat) (h : Nat.isValidChar n) :
    (Char.ofNat n).toNat = n := by
  unfold Char.ofNat
  rw [dif_pos h]
  rfl

theorem charToNat_inj {a b : Char} (h : a.toNat = b.toNat) : a = b := by
  rw [← Char.ofNat_toNat a, h, Char.ofNat_toNat]

theorem chUpper_toNat (c : Char) :
    (chUpper c).toNat
      = if 97 ≤ c.toNat ∧ c.toNat ≤ 122 then c.toNat - 32 else c.toNat := by
  unfold chUpper
  by_cases h : 97 ≤ c.toNat ∧ c.toNat ≤ 122
  · rw [if_pos h, if_pos h, toNat_ofNat_valid _ (Or.inl (by omega))]
  · rw [if_neg h, if_neg h]

theorem chLower_toNat (c : Char) :
    (chLower c).toNat
      = if 65 ≤ c.toNat ∧ c.toNat ≤ 90 then c.toNat + 32 else c.toNat := by
  unfold chLower
  by_cases h : 65 ≤ c.toNat ∧ c.toNat ≤ 90
  · rw [if_pos h, if_pos h, toNat_ofNat_valid _ (Or.inl (by omega))]
  · rw [if_neg h, if_neg h]

/-- If the target is not an upper-case letter, `chUpper` reaches it only
from itself. -/
theorem chUpper_eq_of_nonupper {c t : Char} (ht : ¬(65 ≤ t.toNat ∧ t.toNat ≤ 90))
    (h : chUpper c = t) : c = t := by
  have hn := congrArg Char.toNat h
  rw [chUpper_toNat] at hn
  split at hn
  · exact absurd (by omega : 65 ≤ t.toNat ∧ t.toNat ≤ 90) ht
  · exact charToNat_inj hn

/-- If the target is not a lower-case letter, `chLower` reaches it only
from itself. -/
theorem chLower_eq_of_nonlower {c t : Char} (ht : ¬(97 ≤ t.toNat ∧ t.toNat ≤ 122))
    (h : chLower c = t) : c = t := by
  have hn := congrArg Char.toNat h
  rw [chLower_toNat] at hn
  split at hn
  · exact absurd (by omega : 97 ≤ t.toNat ∧ t.toNat ≤ 122) ht
  · exact charToNat_inj hn

/-- Canonicalization introduces no character that is not a letter-case
image — in particular no `:` and no `\n`. -/
theorem canonAux_not_mem {t : Char} (htU : ¬(65 ≤ t.toNat ∧ t.toNat ≤ 90))
    (htL : ¬(97 ≤ t.toNat ∧ t.toNat ≤ 122)) :
    ∀ (b : Bool) (k : List Char), t ∉ k → t ∉ canonAux b k := by
  intro b k
  induction k generalizing b with
  | nil => intro _ hmem; simp [canonAux] at hmem
  | cons c cs ih =>
      intro hk hmem
      rw [canonAux] at hmem
      rcases List.mem_cons.mp hmem with heq | htail
      · cases b with
        | false =>
            simp only [Bool.false_eq_true, if_false] at heq
            have hct : c = t := chLower_eq_of_nonlower htL heq.symm
            subst hct
            exact hk (List.mem_cons_self _ _)
        | true =>
            simp only [if_true] at heq
            have hct : c = t := chUpper_eq_of_nonupper htU heq.symm
            subst hct
            exact hk (List.mem_cons_self _ _)
      · exact ih _ (fun hm => hk (List.mem_cons_of_mem c hm)) htail

theorem chUpper_byte {c : Char} (h : c.toNat < 256) : (chUpper c).toNat < 256 := by
  rw [chUpper_toNat]; split <;> omega

theorem chLower_byte {c : Char} (h : c.toNat < 256) : (chLower c).toNat < 256 := by
  rw [chLower_toNat]; split <;> omega

theorem canonAux_bytes : ∀ (b : Bool) (k : List Char),
    (∀ c ∈ k, c.toNat < 256) → ∀ c ∈ canonAux b k, c.toNat < 256 := by
  intro b k
  induction k generalizing b with
  | nil => intro _ c hc; exact absurd hc (by simp [canonAux])
  | cons c0 cs ih =>
      intro hk c hc
      rw [canonAux] at hc
      rcases List.mem_cons.mp hc with heq | htail
      · subst heq
        have h0 : c0.toNat < 256 := hk c0 (List.mem_cons_self _ _)
        cases b
        · simpa using chLower_byte h0
        · simpa using chUpper_byte h0
      · exact ih _ (fun x hx => hk x (List.mem_cons_of_mem c0 hx)) c htail

/-! ## Header-map invariants -/

/-- Well-formedness of one parsed header entry: the key holds no colon and
no newline and is made of bytes, every value holds no newline and is made
of bytes. -/
def HdrOk (e : List Char × List (List Char)) : Prop :=
  (':' ∉ e.1 ∧ '\n' ∉ e.1 ∧ ∀ c ∈ e.1, c.toNat < 256)
  ∧ ∀ v ∈ e.2, '\n' ∉ v ∧ ∀ c ∈ v, c.toNat < 256

theorem insertHeader_HdrOk (k v : List Char) (l : Headers)
    (hk : ':' ∉ k ∧ '\n' ∉ k ∧ ∀ c ∈ k, c.toNat < 256)
    (hv : '\n' ∉ v ∧ ∀ c ∈ v, c.toNat < 256)
    (hl : ∀ e ∈ l, HdrOk e) :
    ∀ e ∈ insertHeader k v l, HdrOk e := by
  induction l with
  | nil =>
      intro e he
      rw [insertHeader] at he
      rcases List.mem_singleton.mp he with rfl
      exact ⟨hk, by intro v1 hv1; rcases List.mem_singleton.mp hv1 with rfl; exact hv⟩
  | cons e0 rest ih =>
      obtain ⟨k1, vs⟩ := e0
      intro e he
      rw [insertHeader] at he
      by_cases hk1 : k1 = k
      · rw [if_pos hk1] at he
        rcases List.mem_cons.mp he with rfl | htail
        · have h0 := hl (k1, vs) (List.mem_cons_self _ _)
          refine ⟨h0.1, ?_⟩
          intro v1 hv1
          rcases List.mem_append.mp hv1 with hv1 | hv1
          · exact h0.2 v1 hv1
          · rcases List.mem_singleton.mp hv1 with rfl; exact hv
        · exact hl e (List.mem_cons_of_mem _ htail)
      · rw [if_neg hk1] at he
        rcases List.mem_cons.mp he with rfl | htail
        · exact hl (k1, vs) (List.mem_cons_self _ _)
        · exact ih (fun e1 he1 => hl e1 (List.mem_cons_of_mem _ he1)) e htail

theorem insertHeader_keys (k v : List Char) (l : Headers) :
    (insertHeader k v l).map Prod.fst
      = if k ∈ l.map Prod.fst then l.map Prod.fst else l.map Prod.fst ++ [k] := by
  induction l with
  | nil => simp [insertHeader]
  | cons e0 rest ih =>
      obtain ⟨k1, vs⟩ := e0
      by_cases hk1 : k1 = k
      · subst hk1
        simp [insertHeader]
      · rw [insertHeader, if_neg hk1]
        by_cases hmem : k ∈ rest.map Prod.fst
        · simp only [List.map_cons, ih, if_pos hmem]
          rw [if_pos (by simp [hmem])]
        · simp only [List.map_cons, ih, if_neg hmem]
          rw [if_neg (by simp [hmem, Ne.symm hk1])]
          rfl

theorem insertHeader_nodup (k v : List Char) (l : Headers)
    (h : (l.map Prod.fst).Nodup) :
    ((insertHeader k v l).map Prod.fst).Nodup := by
  rw [insertHeader_keys]
  split
  · exact h
  · rename_i hmem
    simp [List.nodup_append, h, hmem]

/-- The parse loop yields only well-formed entries with pairwise distinct
keys, and a body made of input characters. -/
theorem parseHeadersAux_ok : ∀ (fuel : Nat) (acc : Headers) (cs : List Char)
    (out : Headers × List Char),
    parseHeadersAux fuel acc cs = some out →
    (∀ c ∈ cs, c.toNat < 256) →
    (∀ e ∈ acc, HdrOk e) → (acc.map Prod.fst).Nodup →
    (∀ e ∈ out.1, HdrOk e) ∧ (out.1.map Prod.fst).Nodup
      ∧ ∀ c ∈ out.2, c.toNat < 256 := by
  intro fuel
  induction fuel with
  | zero =>
      intro acc cs out h
      exact absurd h (by simp [parseHeadersAux])
  | succ fuel ih =>
      intro acc cs out h hcs hacc hnd
      rw [parseHeadersAux] at h
      cases hr : readLine cs with
      | none => rw [hr] at h; cases h
      | some p =>
          obtain ⟨line, rest⟩ := p
          rw [hr] at h
          obtain ⟨hln, hlcs, hrcs⟩ := readLine_chars cs line rest hr
          cases line with
          | nil =>
              dsimp only at h
              simp only [Option.some.injEq] at h
              subst h
              exact ⟨hacc, hnd, fun c hc => hcs c (hrcs c hc)⟩
          | cons c0 ltail =>
              dsimp only at h
              by_cases hws : c0 = ' ' ∨ c0 = '\t'
              · rw [if_pos hws] at h; cases h
              · rw [if_neg hws] at h
                cases hsc : splitColon (c0 :: ltail) with
                | none => rw [hsc] at h; cases h
                | some q =>
                    obtain ⟨k, v⟩ := q
                    rw [hsc] at h
                    obtain ⟨hline, hkc⟩ := splitColon_eq _ k v hsc
                    have hkmem : ∀ c ∈ k, c ∈ (c0 :: ltail) := by
                      intro c hc; rw [hline]; exact List.mem_append_left _ hc
                    have hvmem : ∀ c ∈ v, c ∈ (c0 :: ltail) := by
                      intro c hc; rw [hline]
                      exact List.mem_append_right _ (List.mem_cons_of_mem _ hc)
                    have hknl : '\n' ∉ k := fun hm => hln (hkmem _ hm)
                    have hvnl : '\n' ∉ v := fun hm => hln (hvmem _ hm)
                    have hkb : ∀ c ∈ k, c.toNat < 256 :=
                      fun c hc => hcs c (hlcs c (hkmem c hc))
                    have hvb : ∀ c ∈ v, c.toNat < 256 :=
                      fun c hc => hcs c (hlcs c (hvmem c hc))
                    have hvt : ∀ c ∈ trimLeftWS v, c ∈ v := by
                      intro c hc
                      exact (List.dropWhile_sublist _).subset hc
                    refine ih _ rest out h (fun c hc => hcs c (hrcs c hc)) ?_ ?_
                    · refine insertHeader_HdrOk _ _ _ ?_ ?_ hacc
                      · refine ⟨?_, ?_, ?_⟩
                        · exact canonAux_not_mem (by decide) (by decide) true k hkc
                        · exact canonAux_not_mem (by decide) (by decide) true k hknl
                        · exact canonAux_bytes true k hkb
                      · exact ⟨fun hm => hvnl (hvt _ hm),
                          fun c hc => hvb c (hvt c hc)⟩
                    · exact insertHeader_nodup _ _ _ hnd

/-! ## Rendering lemmas -/

theorem joinComma_mem {t : Char} : ∀ (ls : List (List Char)), t ∈ joinComma ls →
    (∃ v ∈ ls, t ∈ v) ∨ t = ',' ∨ t = ' ' := by
  intro ls
  induction ls with
  | nil => intro h; simp [joinComma] at h
  | cons v rest ih =>
      intro h
      cases rest with
      | nil => exact Or.inl ⟨v, by simp, h⟩
      | cons v2 rest2 =>
          rw [show joinComma (v :: v2 :: rest2)
              = v ++ ',' :: ' ' :: joinComma (v2 :: rest2) from rfl] at h
          rcases List.mem_append.mp h with hv | h2
          · exact Or.inl ⟨v, by simp, hv⟩
          · rcases List.mem_cons.mp h2 with rfl | h3
            · exact Or.inr (Or.inl rfl)
            · rcases List.mem_cons.mp h3 with rfl | h4
              · exact Or.inr (Or.inr rfl)
              · rcases ih h4 with ⟨w, hw, htw⟩ | hc
                · exact Or.inl ⟨w, by simp [hw], htw⟩
                · exact Or.inr hc

theorem joinComma_no_newline (ls : List (List Char)) (h : ∀ v ∈ ls, '\n' ∉ v) :
    '\n' ∉ joinComma ls := by
  intro hm
  rcases joinComma_mem ls hm with ⟨v, hv, hmv⟩ | hc | hc
  · exact h v hv hmv
  · exact absurd hc (by decide)
  · exact absurd hc (by decide)

theorem joinComma_bytes (ls : List (List Char))
    (h : ∀ v ∈ ls, ∀ c ∈ v, c.toNat < 256) :
    ∀ c ∈ joinComma ls, c.toNat < 256 := by
  intro c hc
  rcases joinComma_mem ls hc with ⟨v, hv, hmv⟩ | rfl | rfl
  · exact h v hv c hmv
  · decide
  · decide

theorem renderHeaderLine_no_newline (e : List Char × List (List Char))
    (he : HdrOk e) : '\n' ∉ renderHeaderLine e := by
  rw [renderHeaderLine]
  intro hm
  rcases List.mem_append.mp hm with hk | hrest
  · exact he.1.2.1 hk
  · rcases List.mem_cons.mp hrest with hc | hrest2
    · exact absurd hc (by decide)
    · rcases List.mem_cons.mp hrest2 with hc | hj
      · exact absurd hc (by decide)
      · exact joinComma_no_newline e.2 (fun v hv => (he.2 v hv).1) hj

theorem renderHeaderLine_ne_nil (e : List Char × List (List Char)) :
    renderHeaderLine e ≠ [] := by
  rw [renderHeaderLine]
  simp

theorem renderHeaderLine_bytes (e : List Char × List (List Char)) (he : HdrOk e) :
    ∀ c ∈ renderHeaderLine e, c.toNat < 256 := by
  intro c hc
  rw [renderHeaderLine] at hc
  rcases List.mem_append.mp hc with hk | hrest
  · exact he.1.2.2 c hk
  · rcases List.mem_cons.mp hrest with rfl | hrest2
    · decide
    · rcases List.mem_cons.mp hrest2 with rfl | hj
      · decide
      · exact joinComma_bytes e.2 (fun v hv => (he.2 v hv).2) c hj

theorem renderMessage_bytes (hs : Headers) (body : List Char)
    (h1 : ∀ e ∈ hs, HdrOk e) (h2 : ∀ c ∈ body, c.toNat < 256) :
    ∀ c ∈ renderMessage hs body, c.toNat < 256 := by
  intro c hc
  rw [renderMessage] at hc
  rcases List.mem_append.mp hc with hh | hb
  · rcases List.mem_flatten.mp hh with ⟨l, hl, hcl⟩
    rcases List.mem_map.mp hl with ⟨e, he, rfl⟩
    rcases List.mem_append.mp hcl with h3 | h4
    · exact renderHeaderLine_bytes e (h1 e he) c h3
    · rcases List.mem_cons.mp h4 with rfl | h5
      · decide
      · rcases List.mem_singleton.mp h5 with rfl
        decide
  · rcases List.mem_cons.mp hb with rfl | hb2
    · decide
    · rcases List.mem_cons.mp hb2 with rfl | hb3
      · decide
      · exact h2 c hb3

/-! ## Header-block extraction of a rendered message -/

theorem splitAtBlankAux_render : ∀ (hs : Headers) (body : List Char) (fuel : Nat),
    (renderMessage hs body).length < fuel →
    (∀ e ∈ hs, '\n' ∉ renderHeaderLine e) →
    splitAtBlankAux fuel (renderMessage hs body)
      = some (hs.map renderHeaderLine, body) := by
  intro hs
  induction hs with
  | nil =>
      intro body fuel hf hwf
      cases fuel with
      | zero => exact absurd hf (Nat.not_lt_zero _)
      | succ f =>
          have hrw : renderMessage [] body = [] ++ '\r' :: '\n' :: body := by
            simp [renderMessage]
          rw [splitAtBlankAux, hrw, readLine_crlf [] body (by simp)]
          rfl
  | cons e hs ih =>
      intro body fuel hf hwf
      have hrw : renderMessage (e :: hs) body
          = renderHeaderLine e ++ '\r' :: '\n' :: renderMessage hs body := by
        simp [renderMessage]
      cases fuel with
      | zero => exact absurd hf (Nat.not_lt_zero _)
      | succ f =>
          rw [splitAtBlankAux, hrw, readLine_crlf _ _ (hwf e (List.mem_cons_self _ _))]
          have hlen2 : (renderMessage hs body).length < f := by
            have hle := congrArg List.length hrw
            simp only [List.length_append, List.length_cons] at hle
            omega
          simp only [List.map_cons]
          cases hl : renderHeaderLine e with
          | nil => exact absurd hl (renderHeaderLine_ne_nil e)
          | cons c0 ltail =>
              dsimp only
              rw [ih body f hlen2 (fun e1 he1 => hwf e1 (List.mem_cons_of_mem _ he1))]

/-! ## `setHeader` lemmas -/

theorem setHeader_mem_self (k : List Char) (vs : List (List Char)) :
    ∀ l : Headers, (k, vs) ∈ setHeader k vs l := by
  intro l
  induction l with
  | nil => simp [setHeader]
  | cons e0 rest ih =>
      obtain ⟨k1, vs1⟩ := e0
      rw [setHeader]
      by_cases hk1 : k1 = k
      · rw [if_pos hk1]; exact List.mem_cons_self _ _
      · rw [if_neg hk1]; exact List.mem_cons_of_mem _ ih

theorem mem_setHeader (k : List Char) (vs : List (List Char)) :
    ∀ (l : Headers) (e : List Char × List (List Char)),
    (l.map Prod.fst).Nodup → e ∈ setHeader k vs l →
    e = (k, vs) ∨ (e ∈ l ∧ e.1 ≠ k) := by
  intro l
  induction l with
  | nil =>
      intro e _ he
      rw [setHeader] at he
      exact Or.inl (List.mem_singleton.mp he)
  | cons e0 rest ih =>
      obtain ⟨k1, vs1⟩ := e0
      intro e hnd he
      simp only [List.map_cons, List.nodup_cons] at hnd
      obtain ⟨hk1r, hndr⟩ := hnd
      rw [setHeader] at he
      by_cases hk1 : k1 = k
      · rw [if_pos hk1] at he
        rcases List.mem_cons.mp he with rfl | htail
        · exact Or.inl rfl
        · refine Or.inr ⟨List.mem_cons_of_mem _ htail, ?_⟩
          intro hek
          exact hk1r (by rw [hk1, ← hek]; exact List.mem_map_of_mem Prod.fst htail)
      · rw [if_neg hk1] at he
        rcases List.mem_cons.mp he with rfl | htail
        · exact Or.inr ⟨List.mem_cons_self _ _, hk1⟩
        · rcases ih e hndr htail with h1 | ⟨h2, h3⟩
          · exact Or.inl h1
          · exact Or.inr ⟨List.mem_cons_of_mem _ h2, h3⟩

theorem setHeader_HdrOk (k : List Char) (vs : List (List Char)) (l : Headers)
    (hk : HdrOk (k, vs)) (hl : ∀ e ∈ l, HdrOk e)
    (hnd : (l.map Prod.fst).Nodup) :
    ∀ e ∈ setHeader k vs l, HdrOk e := by
  intro e he
  rcases mem_setHeader k vs l e hnd he with rfl | ⟨h1, _⟩
  · exact hk
  · exact hl e h1

theorem setHeader_countP (k : List Char) (vs : List (List Char)) :
    ∀ l : Headers, (l.map Prod.fst).Nodup →
    (setHeader k vs l).countP (fun e => decide (e.1 = k)) = 1 := by
  intro l
  induction l with
  | nil => intro _; simp [setHeader, List.countP_cons]
  | cons e0 rest ih =>
      obtain ⟨k1, vs1⟩ := e0
      intro hnd
      simp only [List.map_cons, List.nodup_cons] at hnd
      obtain ⟨hk1r, hndr⟩ := hnd
      rw [setHeader]
      by_cases hk1 : k1 = k
      · rw [if_pos hk1]
        rw [List.countP_cons]
        have hz : rest.countP (fun e => decide (e.1 = k)) = 0 := by
          rw [List.countP_eq_zero]
          intro e he
          simp only [decide_eq_true_eq]
          intro hek
          exact hk1r (by rw [hk1, ← hek]; exact List.mem_map_of_mem Prod.fst he)
        simp [hz]
      · rw [if_neg hk1]
        rw [List.countP_cons, ih hndr]
        simp [hk1]

/-! ## Fuel congruence for the header-block splitter -/

theorem splitAtBlankAux_congr : ∀ (f1 f2 : Nat) (cs : List Char),
    cs.length < f1 → cs.length < f2 →
    splitAtBlankAux f1 cs = splitAtBlankAux f2 cs := by
  intro f1
  induction f1 with
  | zero => intro f2 cs h1 _; exact absurd h1 (Nat.not_lt_zero _)
  | succ f ih =>
      intro f2 cs h1 h2
      cases f2 with
      | zero => exact absurd h2 (Nat.not_lt_zero _)
      | succ f2 =>
          rw [splitAtBlankAux, splitAtBlankAux]
          cases hr : readLine cs with
          | none => rfl
          | some p =>
              obtain ⟨line, rest⟩ := p
              have hlen := readLine_shrink cs line rest hr
              cases line with
              | nil => rfl
              | cons c0 ltail =>
                  dsimp only
                  rw [ih f2 rest (by omega) (by omega)]

/-! ## Value-trim lemmas -/

theorem trimLeftWS_space (j : List Char)
    (hj : ∀ c, j.head? = some c → (c == ' ' || c == '\t') = false) :
    trimLeftWS (' ' :: j) = j := by
  rw [trimLeftWS, List.dropWhile_cons]
  rw [if_pos (by decide)]
  cases j with
  | nil => rfl
  | cons c rest =>
      rw [List.dropWhile_cons, if_neg (by simp [hj c rfl])]

theorem joinComma_head_not_ws (recipients : List (List Char))
    (h : ∀ a ∈ recipients, ' ' ∉ a ∧ '\t' ∉ a) :
    ∀ c, (joinComma recipients).head? = some c → (c == ' ' || c == '\t') = false := by
  intro c hc
  cases recipients with
  | nil => simp [joinComma] at hc
  | cons r rs =>
      cases rs with
      | nil =>
          have hcr : c ∈ r := by
            cases r with
            | nil => simp [joinComma] at hc
            | cons c0 rtail =>
                rw [show joinComma [c0 :: rtail] = c0 :: rtail from rfl] at hc
                simp only [List.head?_cons, Option.some.injEq] at hc
                exact hc ▸ List.mem_cons_self _ _
          have h1 := (h r (List.mem_cons_self _ _)).1
          have h2 := (h r (List.mem_cons_self _ _)).2
          simp only [Bool.or_eq_false_iff, beq_eq_false_iff_ne, ne_eq]
          exact ⟨fun hcs => h1 (hcs ▸ hcr), fun hct => h2 (hct ▸ hcr)⟩
      | cons r2 rs2 =>
          rw [show joinComma (r :: r2 :: rs2)
              = r ++ ',' :: ' ' :: joinComma (r2 :: rs2) from rfl] at hc
          cases hr : r with
          | nil =>
              rw [hr] at hc
              simp only [List.nil_append, List.head?_cons, Option.some.injEq] at hc
              subst hc
              decide
          | cons c0 rtail =>
              rw [hr] at hc
              simp only [List.cons_append, List.head?_cons, Option.some.injEq] at hc
              subst hc
              have hcr : c0 ∈ r := hr ▸ List.mem_cons_self _ _
              have h1 := (h r (List.mem_cons_self _ _)).1
              have h2 := (h r (List.mem_cons_self _ _)).2
              simp only [Bool.or_eq_false_iff, beq_eq_false_iff_ne, ne_eq]
              exact ⟨fun hcs => h1 (hcs ▸ hcr), fun hct => h2 (hct ▸ hcr)⟩

/-! ## Claim theorem: header rewrite and dispatch payload -/

/-- C3: for a successfully dispatched message with a non-empty recipient
list, the outbound payload is the unpadded URL-safe base64 encoding of the
rewritten message; decoding it gives that message back, whose header block
(the lines before the first empty line) contains exactly one line with
field name `To`, whose value is the envelope recipients joined by
`", "` — regardless of the original message's `To` content — and whose
body is byte-for-byte the body of the input message.  Hypotheses: the
input message parses, the recipients are SMTP envelope addresses (no
newline, no blanks) made of bytes, and the input is made of bytes. -/
theorem Send_replaces_To_header (recipients : List (List Char)) (raw : List Char)
    (H : Headers) (body : List Char)
    (hparse : parseMessage raw = some (H, body))
    (hne : recipients ≠ [])
    (haddr : ∀ a ∈ recipients, '\n' ∉ a ∧ ' ' ∉ a ∧ '\t' ∉ a)
    (hbytes : ∀ c ∈ raw, c.toNat < 256)
    (hrbytes : ∀ a ∈ recipients, ∀ c ∈ a, c.toNat < 256) :
    ∃ outMsg : List Char,
      replaceToHeader recipients raw = some outMsg
      ∧ ClientSendPayload recipients raw = some (encB64 (outMsg.map Char.toNat))
      ∧ decB64 (encB64 (outMsg.map Char.toNat)) = some (outMsg.map Char.toNat)
      ∧ ∃ lines : List (List Char),
          splitAtBlank outMsg = some (lines, body)
          ∧ lines.countP (fun l => decide (lineKey l = some toHeaderName)) = 1
          ∧ ∃ l ∈ lines, lineKey l = some toHeaderName
              ∧ lineVal l = some (joinComma recipients) := by
  obtain ⟨hHok, hHnd, hbodyb⟩ :=
    parseHeadersAux_ok (raw.length + 1) [] raw (H, body) hparse hbytes
      (by simp) (by simp)
  have hjoin_nl : '\n' ∉ joinComma recipients :=
    joinComma_no_newline _ (fun v hv => (haddr v hv).1)
  have hjoin_b : ∀ c ∈ joinComma recipients, c.toNat < 256 :=
    joinComma_bytes _ hrbytes
  have hkeyfacts : ':' ∉ toHeaderName ∧ '\n' ∉ toHeaderName
      ∧ ∀ c ∈ toHeaderName, c.toNat < 256 := by decide
  have hTo : HdrOk (toHeaderName, [joinComma recipients]) := by
    refine ⟨hkeyfacts, ?_⟩
    intro v hv
    rcases List.mem_singleton.mp hv with rfl
    exact ⟨hjoin_nl, hjoin_b⟩
  have hH'ok : ∀ e ∈ setHeader toHeaderName [joinComma recipients] H, HdrOk e :=
    setHeader_HdrOk _ _ _ hTo hHok hHnd
  have hrepl : replaceToHeader recipients raw
      = some (renderMessage (setHeader toHeaderName [joinComma recipients] H) body) := by
    rw [replaceToHeader, hparse]
    dsimp only
    rw [if_pos (List.length_pos.mpr hne)]
  have houtb : ∀ x ∈ (renderMessage (setHeader toHeaderName [joinComma recipients] H)
      body).map Char.toNat, x < 256 := by
    intro x hx
    rcases List.mem_map.mp hx with ⟨c, hc, rfl⟩
    exact renderMessage_bytes _ body hH'ok hbodyb c hc
  have hsplit : splitAtBlank (renderMessage
        (setHeader toHeaderName [joinComma recipients] H) body)
      = some ((setHeader toHeaderName [joinComma recipients] H).map renderHeaderLine,
          body) := by
    rw [splitAtBlank]
    exact splitAtBlankAux_render _ body _ (by omega)
      (fun e he => renderHeaderLine_no_newline e (hH'ok e he))
  have hkeys : ∀ e ∈ setHeader toHeaderName [joinComma recipients] H,
      lineKey (renderHeaderLine e) = some e.1 := by
    intro e he
    rw [renderHeaderLine, lineKey, splitColon_append _ _ (hH'ok e he).1.1]
    rfl
  have hcount : ((setHeader toHeaderName [joinComma recipients] H).map
        renderHeaderLine).countP (fun l => decide (lineKey l = some toHeaderName))
      = 1 := by
    rw [List.countP_map]
    rw [List.countP_congr (q := fun e => decide (e.1 = toHeaderName)) ?_]
    · exact setHeader_countP _ _ H hHnd
    · intro e he
      simp only [Function.comp_apply, hkeys e he, Option.some.injEq,
        decide_eq_true_eq]
  have hToMem : (toHeaderName, [joinComma recipients])
      ∈ setHeader toHeaderName [joinComma recipients] H :=
    setHeader_mem_self _ _ H
  refine ⟨renderMessage (setHeader toHeaderName [joinComma recipients] H) body,
    hrepl, ?_, decB64_encB64 _ houtb,
    (setHeader toHeaderName [joinComma recipients] H).map renderHeaderLine,
    hsplit, hcount,
    renderHeaderLine (toHeaderName, [joinComma recipients]),
    List.mem_map_of_mem renderHeaderLine hToMem, hkeys _ hToMem, ?_⟩
  · rw [ClientSendPayload, hrepl]
    rfl
  · rw [renderHeaderLine, lineVal]
    rw [show joinComma [joinComma recipients] = joinComma recipients from rfl]
    rw [splitColon_append toHeaderName (' ' :: joinComma recipients) hkeyfacts.1]
    dsimp only [Option.map_some']
    rw [trimLeftWS_space _ (joinComma_head_not_ws recipients
      (fun a ha => ⟨(haddr a ha).2.1, (haddr a ha).2.2⟩))]

/-- C3 witness: a concrete message whose original `To` is replaced by the
two envelope recipients. -/
theorem Send_replaces_To_header_witness :
    ∃ outMsg : List Char,
      replaceToHeader [("r1@e").toList, ("r2@e").toList]
          ("From: a@b\r\nTo: x@y\r\n\r\nBody").toList = some outMsg
      ∧ ClientSendPayload [("r1@e").toList, ("r2@e").toList]
          ("From: a@b\r\nTo: x@y\r\n\r\nBody").toList
        = some (encB64 (outMsg.map Char.toNat))
      ∧ decB64 (encB64 (outMsg.map Char.toNat)) = some (outMsg.map Char.toNat)
      ∧ ∃ lines : List (List Char),
          splitAtBlank outMsg = some (lines, ("Body").toList)
          ∧ lines.countP (fun l => decide (lineKey l = some toHeaderName)) = 1
          ∧ ∃ l ∈ lines, lineKey l = some toHeaderName
              ∧ lineVal l
                = some (joinComma [("r1@e").toList, ("r2@e").toList]) :=
  Send_replaces_To_header [("r1@e").toList, ("r2@e").toList]
    ("From: a@b\r\nTo: x@y\r\n\r\nBody").toList
    [(("From").toList, [("a@b").toList]), (("To").toList, [("x@y").toList])]
    ("Body").toList
    (by decide) (by decide) (by decide) (by decide) (by decide)
